import Mathlib

/-!
Verification development for the Fireflies meeting fetcher.

This file gives a shallow embedding, in Lean 4, of the parts of the Python
sources that the checked claims are about:

* `src/config.py`      — relative date-range computation (`Config.get_date_range`);
* `src/fireflies_client.py` — client-side input validation (`fetch_transcripts`),
  pagination (`fetch_all_transcripts_in_range`), key validation (`validate_api_key`);
* `src/transcript_formatter.py` — save-index (`_load_index` / `_save_index` /
  `is_transcript_already_saved` / `record_transcript_saved`), filename
  sanitization (`sanitize_filename`), participant formatting
  (`format_participants`), document persistence (`save_transcript`);
* `src/main.py`        — the orchestrator loop (`process_transcript`,
  `process_all_transcripts`, `run`, `main`).

Python strings are embedded as `List Char`, Python ints as `Int` (or `Nat`
where the source value is a count), dictionaries as insertion-ordered
association lists, exceptions as `Except` / `Option`, and the filesystem /
network as explicit state or oracle parameters.
-/

/-! ## Date model (src/config.py, `Config.get_date_range`) -/

/-- A calendar datetime truncated to its date part; `datetime.replace` in the
source only ever touches `year` and `month`, and validity of the result only
depends on (year, month, day). -/
structure PyDate where
  year : Int
  month : Nat
  day : Nat
deriving DecidableEq, Repr

/-- Gregorian leap-year rule, as used by Python's `datetime` validation. -/
def isLeapYear (y : Int) : Bool :=
  y % 4 == 0 && (y % 100 != 0 || y % 400 == 0)

/-- Number of days in a month, as used by Python's `datetime` validation. -/
def daysInMonth (y : Int) (m : Nat) : Nat :=
  if m = 2 then (if isLeapYear y then 29 else 28)
  else if m = 4 || m = 6 || m = 9 || m = 11 then 30
  else 31

/-- One iteration of the loop in `Config.get_date_range` (src/config.py:194-199):
go back one month, handling the year boundary.  `datetime.replace` raises
`ValueError` when the unchanged `day` is out of range for the new month; that
is embedded as `none`. -/
def backOneMonth (d : PyDate) : Option PyDate :=
  if d.month = 1 then
    if d.day ≤ daysInMonth (d.year - 1) 12 then
      some ⟨d.year - 1, 12, d.day⟩
    else none
  else
    if d.day ≤ daysInMonth d.year (d.month - 1) then
      some ⟨d.year, d.month - 1, d.day⟩
    else none

/-- The `for _ in range(self.months_to_fetch)` loop of `Config.get_date_range`. -/
def backMonths : Nat → PyDate → Option PyDate
  | 0, d => some d
  | n + 1, d => (backOneMonth d).bind (backMonths n)

/-- Embeds `Config.get_date_range` in the relative (no absolute override) case:
`end_date = now`, `start_date = now` walked back `months_to_fetch` months.
A `ValueError` escaping the loop is embedded as `none`. -/
def get_date_range (months_to_fetch : Nat) (now : PyDate) : Option (PyDate × PyDate) :=
  (backMonths months_to_fetch now).map (fun s => (s, now))

/-! ## API client (src/fireflies_client.py) -/

/-- The GraphQL list request that `FirefliesClient.fetch_transcripts` issues
after its client-side validation passes (the `variables` of the query). -/
structure ListRequest where
  fromDate : List Char
  toDate : List Char
  limit : Int
  skip : Int
deriving DecidableEq, Repr

/-- Embeds `FirefliesClient.fetch_transcripts` up to the point where the network
request is issued: the two client-side validations run first, and a raised
`ValueError` (embedded as `.error`) means no request value is ever produced. -/
def fetch_transcripts (fromDate toDate : List Char) (limit skip : Int) :
    Except (List Char) ListRequest :=
  if limit > 50 then
    .error ("Limit cannot exceed 50 (API maximum)".data)
  else if skip < 0 then
    .error ("Skip cannot be negative".data)
  else
    .ok ⟨fromDate, toDate, limit, skip⟩

/-- The pagination loop of `FirefliesClient.fetch_all_transcripts_in_range`.
The provider is modelled as the list of pages it would answer for
`skip = 0, pageSize, 2*pageSize, ...` (an exhausted provider answers `[]`).
The result is the accumulated item list together with the trace of `skip`
values actually requested. -/
def fetch_all_go {α : Type} (pageSize : Nat) :
    List (List α) → Nat → (List α × List Nat)
  | [], skip => ([], [skip])
  | page :: rest, skip =>
    if page.length = 0 then ([], [skip])
    else if page.length < pageSize then (page, [skip])
    else
      let r := fetch_all_go pageSize rest (skip + pageSize)
      (page ++ r.1, skip :: r.2)

/-- Embeds `FirefliesClient.fetch_all_transcripts_in_range`: start at `skip = 0`. -/
def fetch_all_transcripts_in_range {α : Type} (pages : List (List α))
    (max_per_query : Nat) : List α × List Nat :=
  fetch_all_go max_per_query pages 0

/-! ### Key validation (`validate_api_key`) -/

/-- ASCII lowering, the fragment of `str.lower()` exercised by the client's
error messages (which are all ASCII). -/
def toLowerAscii (c : Char) : Char :=
  if 'A' ≤ c && c ≤ 'Z' then Char.ofNat (c.toNat + 32) else c

/-- Tests that `needle` begins `hay` (used to build Python `in`). -/
def beginsWith : List Char → List Char → Bool
  | [], _ => true
  | _ :: _, [] => false
  | a :: as, b :: bs => a = b && beginsWith as bs

/-- Python's substring test `needle in hay`. -/
def containsSub (needle : List Char) : List Char → Bool
  | [] => beginsWith needle []
  | c :: rest => beginsWith needle (c :: rest) || containsSub needle rest

/-- The test in `validate_api_key`:
`"authentication" in str(e).lower() or "unauthorized" in str(e).lower()`. -/
def isAuthLikeMessage (msg : List Char) : Bool :=
  containsSub ("authentication".data) (msg.map toLowerAscii) ||
  containsSub ("unauthorized".data) (msg.map toLowerAscii)

/-- Outcome of the minimal query that `validate_api_key` performs, as
classified by `_make_graphql_request`: success, a raised `FirefliesAPIError`
carrying its message, or some other exception. -/
inductive RequestOutcome where
  | success
  | apiError (msg : List Char)
  | otherError
deriving Repr

/-- The fixed messages `_make_graphql_request` raises for its HTTP status
classification (src/fireflies_client.py:171-181). -/
def httpErrorMessage (status : Nat) (body : List Char) : List Char :=
  if status = 401 then "Authentication failed. Please check your API key.".data
  else if status = 429 then "Rate limit exceeded. Please try again later.".data
  else ("HTTP error ".data ++ (Nat.repr status).data ++ ": ".data ++ body)

/-- The messages `_make_graphql_request` raises for transport failures. -/
def timeoutMessage : List Char :=
  "Request timed out. Please check your internet connection.".data

/-- Connection-failure message of `_make_graphql_request`. -/
def connectionErrorMessage : List Char :=
  "Connection error. Please check your internet connection.".data

/-- Embeds `FirefliesClient.validate_api_key`: returns `true` on success; on a
`FirefliesAPIError` returns `false` when the message looks like an
authentication failure and re-raises (`.error`) otherwise; returns `false`
on any other exception. -/
def validate_api_key : RequestOutcome → Except (List Char) Bool
  | .success => .ok true
  | .apiError msg =>
    if isAuthLikeMessage msg then .ok false else .error msg
  | .otherError => .ok false

/-! ## Transcript formatter (src/transcript_formatter.py) -/

/-- The character class of `re.sub(r'[<>:"/\\|?*!]', "_", ...)` in
`sanitize_filename`. -/
def isInvalidChar (c : Char) : Bool :=
  c = '<' || c = '>' || c = ':' || c = '"' || c = '/' || c = '\\' ||
  c = '|' || c = '?' || c = '*' || c = '!'

/-- ASCII whitespace, the fragment of Python's `str.strip()` / regex `\s`
class exercised here: space, tab, newline, carriage return, vertical tab,
form feed. -/
def isPySpace (c : Char) : Bool :=
  c = ' ' || c = '\t' || c = '\n' || c = '\r' ||
  c = Char.ofNat 11 || c = Char.ofNat 12

/-- The character class of `re.sub(r"[_\s]+", "_", ...)`. -/
def isUnderscoreOrSpace (c : Char) : Bool :=
  c = '_' || isPySpace c

/-- The character class of `.strip("_.")` / `.rstrip("_.")`. -/
def isTrimChar (c : Char) : Bool :=
  c = '_' || c = '.'

/-- One character of `re.sub(r'[<>:"/\\|?*!]', "_", ...)`. -/
def replaceInvalid (c : Char) : Char :=
  if isInvalidChar c then '_' else c

/-- Embeds `re.sub(r"[_\s]+", "_", s)`: every maximal run of underscores and
whitespace becomes a single underscore. -/
def collapseRuns : List Char → List Char
  | [] => []
  | [c] => if isUnderscoreOrSpace c then ['_'] else [c]
  | c :: d :: rest =>
    if isUnderscoreOrSpace c then
      if isUnderscoreOrSpace d then collapseRuns (d :: rest)
      else '_' :: collapseRuns (d :: rest)
    else c :: collapseRuns (d :: rest)

/-- Python `str.lstrip` restricted to a character predicate. -/
def lstripP (p : Char → Bool) (l : List Char) : List Char :=
  l.dropWhile p

/-- Python `str.rstrip` restricted to a character predicate. -/
def rstripP (p : Char → Bool) (l : List Char) : List Char :=
  (l.reverse.dropWhile p).reverse

/-- Python `str.strip` restricted to a character predicate. -/
def stripP (p : Char → Bool) (l : List Char) : List Char :=
  rstripP p (lstripP p l)

/-- Python `str.strip()` with no argument: trim whitespace at both ends. -/
def pyStrip (l : List Char) : List Char :=
  stripP isPySpace l

/-- Embeds `TranscriptFormatter.sanitize_filename` minus its two timestamp-fallback
branches: `some s` is the sanitized name, `none` means the source falls back
to `f"meeting_{timestamp}"` (empty / whitespace-only title, or a title that
sanitizes to nothing).  `max_length` is the source default 100. -/
def sanitizeCore (title : List Char) : Option (List Char) :=
  if pyStrip title = [] then none
  else
    let s1 := (pyStrip title).map replaceInvalid
    let s2 := collapseRuns s1
    let s3 := stripP isTrimChar s2
    if s3 = [] then none
    else if s3.length > 100 then some (rstripP isTrimChar (s3.take 100))
    else some s3

/-- The timestamp fallback `f"meeting_{timestamp}"`; the formatted
`datetime.now()` timestamp is a parameter. -/
def fallbackName (timestamp : List Char) : List Char :=
  "meeting_".data ++ timestamp

/-- Embeds `TranscriptFormatter.sanitize_filename` (src/transcript_formatter.py:125-159). -/
def sanitize_filename (timestamp : List Char) (title : List Char) : List Char :=
  match sanitizeCore title with
  | some s => s
  | none => fallbackName timestamp

/-! ### Save-index (src/transcript_formatter.py:54-123) -/

/-- A Python `dict` with string keys and values, as an insertion-ordered
association list (`json.dump`/`json.load` round-trips exactly this mapping). -/
abbrev IndexMap : Type := List (List Char × List Char)

/-- Python `d[k] = v`: overwrite in place, or append a new binding. -/
def dictSet (m : IndexMap) (k v : List Char) : IndexMap :=
  match m with
  | [] => [(k, v)]
  | (k', v') :: rest =>
    if k' = k then (k, v) :: rest else (k', v') :: dictSet rest k v

/-- Python `k in d` / `d.get(k)` as a lookup. -/
def dictGet (m : IndexMap) (k : List Char) : Option (List Char) :=
  match m with
  | [] => none
  | (k', v') :: rest => if k' = k then some v' else dictGet rest k

/-- The mutable state of a `TranscriptFormatter` relevant to the save-index:
the in-memory `_id_index` cache, the `_index_loaded` memo flag, and the
contents of the `.fireflies_index.json` file (`none` when absent). -/
structure FormatterState where
  idIndex : IndexMap
  indexLoaded : Bool
  diskIndex : Option IndexMap
deriving DecidableEq

/-- A freshly constructed `TranscriptFormatter` over a given disk state:
`_id_index = {}`, `_index_loaded = False`. -/
def freshFormatter (disk : Option IndexMap) : FormatterState :=
  ⟨[], false, disk⟩

/-- Embeds `TranscriptFormatter._load_index`: lazy, memoized; a present (valid) index
file replaces the in-memory mapping, a missing file leaves it as is. -/
def load_index (s : FormatterState) : FormatterState :=
  if s.indexLoaded then s
  else
    { s with
      indexLoaded := true
      idIndex := match s.diskIndex with
        | some d => d
        | none => s.idIndex }

/-- Embeds `TranscriptFormatter._save_index`: rewrite the whole index file. -/
def save_index (s : FormatterState) : FormatterState :=
  { s with diskIndex := some s.idIndex }

/-- A Python transcript ID argument: `none` is `None`, `some []` is `""`.
`if not transcript_id` is true exactly for those two. -/
def idFalsy : Option (List Char) → Bool
  | none => true
  | some t => t.isEmpty

/-- Embeds `TranscriptFormatter.is_transcript_already_saved`: the returned Bool and
the state after the lazy load. -/
def is_transcript_already_saved (tid : Option (List Char)) (s : FormatterState) :
    Bool × FormatterState :=
  if idFalsy tid then (false, s)
  else
    let s' := load_index s
    match tid with
    | none => (false, s')
    | some t => ((dictGet s'.idIndex t).isSome, s')

/-- Embeds `TranscriptFormatter.record_transcript_saved`: no-op on a falsy ID,
otherwise load (lazily), set the binding, and rewrite the index file. -/
def record_transcript_saved (tid : Option (List Char)) (filename : List Char)
    (s : FormatterState) : FormatterState :=
  if idFalsy tid then s
  else
    match tid with
    | none => s
    | some t =>
      let s' := load_index s
      save_index { s' with idIndex := dictSet s'.idIndex t filename }

/-! ### Participant formatting (src/transcript_formatter.py:206-237) -/

/-- Embeds `list(set(xs))`: deduplication of a list.  CPython's `set` iteration
order is unspecified (hash-based); it is modelled deterministically as
first-occurrence order. -/
def pySetList : List (List Char) → List (List Char) :=
  go []
where
  /-- Deduplicate, skipping elements already `seen`. -/
  go (seen : List (List Char)) : List (List Char) → List (List Char)
    | [] => []
    | x :: xs => if x ∈ seen then go seen xs else x :: go (x :: seen) xs

/-- Embeds the comma join `", ".join(xs)`. -/
def commaJoin (xs : List (List Char)) : List Char :=
  List.intercalate (", ".data) xs

/-- Embeds `TranscriptFormatter.format_participants`.  The `isinstance` guards are
type-level in the embedding; `if not participants and not fireflies_users`
is true exactly when both lists are empty. -/
def format_participants (participants fireflies_users : List (List Char)) :
    List Char :=
  if participants.isEmpty && fireflies_users.isEmpty then
    "No participants recorded".data
  else
    let all_participants := pySetList (participants ++ fireflies_users)
    if all_participants.length ≤ 5 then commaJoin all_participants
    else
      commaJoin (all_participants.take 3) ++
        " and ".data ++ (Nat.repr (all_participants.length - 3)).data ++
        " others".data

/-! ### Saving a transcript (src/transcript_formatter.py:377-436) -/

/-- The fields of a detailed transcript record that `save_transcript` and
the orchestrator consult.  Absent dict keys are `none`. -/
structure TranscriptData where
  id : Option (List Char)
  title : Option (List Char)
deriving DecidableEq

/-- The collision loop of `save_transcript`: candidate names are the original
`stem ++ ext`, then `stem_1 ++ ext`, `stem_2 ++ ext`, … until a name not in
`files` is found.  The source's `while` loop always terminates because the
candidates are pairwise distinct and `files` is finite; fuel
`files.length + 1` therefore suffices and the fuel-exhausted branch is
unreachable. -/
def resolveCollision (files : List (List Char)) (stem ext : List Char) :
    List Char :=
  go (files.length + 1) (stem ++ ext) 1
where
  /-- Try one candidate; on collision move to counter `k + 1`. -/
  go : Nat → List Char → Nat → List Char
    | 0, cand, _ => cand
    | fuel + 1, cand, k =>
      if cand ∈ files then
        go fuel (stem ++ "_".data ++ (Nat.repr k).data ++ ext) (k + 1)
      else cand

/-- Filesystem-plus-index state owned by the formatter: the document files
present in the output directory and the save-index state. -/
structure SaveState where
  files : List (List Char)
  fmt : FormatterState
deriving DecidableEq

/-- Embeds `TranscriptFormatter.save_transcript` without a `filename_override`.
`timestamp` feeds the sanitize fallback; `writeOk` models whether the
`open(...).write` of the document succeeds (a failure raises, wrapped in
`OSError`, before the index is touched).  The rendered markdown content is
irrelevant to the claims and not tracked.  Returns the final path (the
filename, all files living in one directory) and the new state; on failure
the state is returned unchanged, exactly as the source leaves it. -/
def save_transcript (timestamp : List Char) (writeOk : Bool)
    (tdata : TranscriptData) (st : SaveState) :
    Except Unit (List Char) × SaveState :=
  let title := match tdata.title with
    | some t => t
    | none => "Untitled Meeting".data
  let file_path := resolveCollision st.files
    (sanitize_filename timestamp title) (".md".data)
  if writeOk then
    let st1 : SaveState := { st with files := st.files ++ [file_path] }
    let st2 : SaveState :=
      { st1 with fmt := record_transcript_saved tdata.id file_path st1.fmt }
    (.ok file_path, st2)
  else
    (.error (), st)

/-! ## Orchestrator (src/main.py) -/

/-- The orchestrator's `self.stats` counters. -/
structure RunStats where
  total_transcripts : Nat
  successful_downloads : Nat
  failed_downloads : Nat
  skipped_files : Nat
deriving DecidableEq

/-- Embeds `self.stats` as initialized in `FirefliesFetcher.__init__`. -/
def initStats : RunStats := ⟨0, 0, 0, 0⟩

/-- An entry of the listing that drives the processing loop. -/
structure TranscriptMeta where
  id : Option (List Char)
  title : List Char
deriving DecidableEq

/-- Orchestrator state: the run statistics, the formatter's state, and a
trace counter of how many detail-fetch network requests have been issued. -/
structure OrchState where
  stats : RunStats
  save : SaveState
  fetchCalls : Nat
deriving DecidableEq

/-- Embeds `FirefliesClient.fetch_transcript_details` as seen by the orchestrator:
an empty / absent / whitespace-only ID raises `ValueError` before any
network call; otherwise one network request is issued and the oracle
`details` answers it (`none` embeds a raised `FirefliesAPIError`, e.g.
not-found).  Returns the outcome and whether a request was issued. -/
def fetch_transcript_details (details : List Char → Option TranscriptData)
    (tid : Option (List Char)) : Option TranscriptData × Bool :=
  match tid with
  | none => (none, false)
  | some t => if pyStrip t = [] then (none, false) else (details t, true)

/-- Embeds `FirefliesFetcher.process_transcript` (src/main.py:137-171): fetch the
detail record, save it, and update the success/failure counters; every raised
exception is caught and counted as a failed download. -/
def process_transcript (details : List Char → Option TranscriptData)
    (timestamp : List Char) (writeOk : Bool) (meta : TranscriptMeta)
    (st : OrchState) : Bool × OrchState :=
  let r := fetch_transcript_details details meta.id
  let st := { st with fetchCalls := st.fetchCalls + (if r.2 then 1 else 0) }
  match r.1 with
  | none =>
    (false, { st with stats :=
      { st.stats with failed_downloads := st.stats.failed_downloads + 1 } })
  | some d =>
    match save_transcript timestamp writeOk d st.save with
    | (.error _, save') =>
      (false, { st with save := save', stats :=
        { st.stats with failed_downloads := st.stats.failed_downloads + 1 } })
    | (.ok _, save') =>
      (true, { st with save := save', stats :=
        { st.stats with
          successful_downloads := st.stats.successful_downloads + 1 } })

/-- Embeds `FirefliesFetcher.process_all_transcripts`: the sequential loop; the
per-item Bool result is discarded, as in the source. -/
def process_all_transcripts (details : List Char → Option TranscriptData)
    (timestamp : List Char) (writeOk : Bool) :
    List TranscriptMeta → OrchState → OrchState
  | [], st => st
  | m :: rest, st =>
    process_all_transcripts details timestamp writeOk rest
      (process_transcript details timestamp writeOk m st).2

/-- How `FirefliesFetcher.run` / `main` terminate besides normal completion:
a `KeyboardInterrupt` or an unexpected fatal exception, both caught and
turned into a `False` result (src/main.py:272-277, 318-323). -/
inductive RunAbort where
  | completes
  | interrupted
  | fatalError
deriving DecidableEq

/-- Embeds `FirefliesFetcher.run`: initialize (abort on failure), list, process all,
then report success iff `successful_downloads > 0`.  `initOk` models
`initialize()`; `metas` is the listing the client returns; an abort leaves
the stats wherever they were (here: at the point of the abort, which the
exit-code claims do not depend on). -/
def run (abort : RunAbort) (initOk : Bool)
    (details : List Char → Option TranscriptData) (timestamp : List Char)
    (writeOk : Bool) (metas : List TranscriptMeta) (st0 : OrchState) :
    Bool × OrchState :=
  match abort with
  | .interrupted => (false, st0)
  | .fatalError => (false, st0)
  | .completes =>
    if initOk then
      let st1 := { st0 with stats :=
        { st0.stats with total_transcripts := metas.length } }
      let st2 := process_all_transcripts details timestamp writeOk metas st1
      (decide (0 < st2.stats.successful_downloads), st2)
    else (false, st0)

/-- The orchestrator state at process start: zeroed stats, no detail fetches
issued yet, a fresh formatter over the given disk state. -/
def initOrchState (disk : Option IndexMap) (files : List (List Char)) :
    OrchState :=
  ⟨initStats, ⟨files, freshFormatter disk⟩, 0⟩

/-- Embeds `main` (src/main.py:304-323): exit code 0 when `run` reports success,
1 otherwise (including the interrupt and fatal-error handlers). -/
def mainExitCode (abort : RunAbort) (initOk : Bool)
    (details : List Char → Option TranscriptData) (timestamp : List Char)
    (writeOk : Bool) (metas : List TranscriptMeta) (st0 : OrchState) : Nat :=
  if (run abort initOk details timestamp writeOk metas st0).1 then 0 else 1

/-! ## Lemmas -/

/-- Setting a key and then looking it up yields the value just set. -/
theorem dictGet_dictSet_self (m : IndexMap) (k v : List Char) :
    dictGet (dictSet m k v) k = some v := by
  induction m with
  | nil => simp [dictSet, dictGet]
  | cons kv rest ih =>
    obtain ⟨k', v'⟩ := kv
    by_cases h : k' = k <;> simp [dictSet, dictGet, h, ih]

/-! ## Claim theorems -/

/-- Claim C2: `get_date_range` with no absolute override walks `now` back N
calendar months, keeping the day and handling the year boundary, as on the
spec's two examples — but on a day-of-month that does not exist in the
target month (day 31 going back to February) `datetime.replace` raises
`ValueError` and the computation aborts (`none`), contradicting the claim's
universal quantification over every current datetime. -/
theorem get_date_range_examples_and_day31_failure :
    get_date_range 1 ⟨2024, 3, 15⟩ = some (⟨2024, 2, 15⟩, ⟨2024, 3, 15⟩) ∧
    get_date_range 2 ⟨2024, 1, 15⟩ = some (⟨2023, 11, 15⟩, ⟨2024, 1, 15⟩) ∧
    get_date_range 1 ⟨2024, 3, 31⟩ = none := by
  refine ⟨?_, ?_, ?_⟩ <;> decide

/-- Claim C9: `fetch_transcripts` raises its input-validation `ValueError`
for `limit > 50` or `skip < 0` before any network request is produced, and
for `limit ≤ 50`, `skip ≥ 0` no client-side error is raised: the GraphQL
request with exactly those variables is issued. -/
theorem fetch_transcripts_validates_before_network (f t : List Char)
    (limit skip : Int) :
    ((50 < limit ∨ skip < 0) →
      ∃ m, fetch_transcripts f t limit skip = Except.error m) ∧
    (limit ≤ 50 → 0 ≤ skip →
      fetch_transcripts f t limit skip = Except.ok ⟨f, t, limit, skip⟩) := by
  unfold fetch_transcripts
  constructor
  · rintro (h | h)
    · rw [if_pos h]
      exact ⟨_, rfl⟩
    · by_cases h50 : limit > 50
      · rw [if_pos h50]
        exact ⟨_, rfl⟩
      · rw [if_neg h50, if_pos h]
        exact ⟨_, rfl⟩
  · intro h1 h2
    rw [if_neg (by omega), if_neg (by omega)]

/-- Witness for C9 at concrete inputs: `limit = 51` raises before the
network, `limit = 10, skip = 0` issues the request. -/
theorem fetch_transcripts_validates_before_network_witness :
    (∃ m, fetch_transcripts [] [] 51 0 = Except.error m) ∧
    fetch_transcripts [] [] 10 0 = Except.ok ⟨[], [], 10, 0⟩ :=
  ⟨(fetch_transcripts_validates_before_network [] [] 51 0).1
      (Or.inl (by decide)),
    (fetch_transcripts_validates_before_network [] [] 10 0).2
      (by decide) (by decide)⟩

/-- Claim C8: `validate_api_key` returns `false` (rather than raising)
exactly when the provider-API error message is classified as an
authentication failure — which the fixed message of the HTTP 401
classification is — and re-raises any other provider-API error (HTTP 429,
timeout, connection error, ...). -/
theorem validate_api_key_distinguishes_auth_errors (msg body : List Char) :
    (validate_api_key (.apiError msg) = .ok false ↔
      isAuthLikeMessage msg = true) ∧
    (isAuthLikeMessage msg = false →
      validate_api_key (.apiError msg) = .error msg) ∧
    validate_api_key (.apiError (httpErrorMessage 401 body)) = .ok false ∧
    validate_api_key (.apiError (httpErrorMessage 429 body)) =
      .error (httpErrorMessage 429 body) ∧
    validate_api_key (.apiError timeoutMessage) = .error timeoutMessage ∧
    validate_api_key (.apiError connectionErrorMessage) =
      .error connectionErrorMessage := by
  have h401 : httpErrorMessage 401 body =
      "Authentication failed. Please check your API key.".data := rfl
  have h429 : httpErrorMessage 429 body =
      "Rate limit exceeded. Please try again later.".data := rfl
  refine ⟨?_, ?_, ?_, ?_, ?_, ?_⟩
  · cases h : isAuthLikeMessage msg <;> simp [validate_api_key, h]
  · intro h
    simp [validate_api_key, h]
  · rw [h401]; rfl
  · rw [h429]; rfl
  · rfl
  · rfl

/-- Witness for C8: a message with no authentication marker is re-raised. -/
theorem validate_api_key_distinguishes_auth_errors_witness :
    isAuthLikeMessage ("boom".data) = false ∧
    validate_api_key (.apiError ("boom".data)) = .error ("boom".data) :=
  ⟨by decide,
    (validate_api_key_distinguishes_auth_errors ("boom".data) []).2.1
      (by decide)⟩

/-- Claim C5: after `record_transcript_saved(id, name)` succeeds, loading the
index file freshly from disk yields a mapping that contains `id` and resolves
it to `name`; `record` with an empty/absent ID is a no-op and `contains` of
an empty/absent ID is `false`. -/
theorem save_index_round_trip (t filename : List Char) (s : FormatterState)
    (h : t ≠ []) :
    (is_transcript_already_saved (some t)
      (freshFormatter (record_transcript_saved (some t) filename s).diskIndex)).1
        = true ∧
    dictGet (load_index (freshFormatter
      (record_transcript_saved (some t) filename s).diskIndex)).idIndex t
        = some filename ∧
    record_transcript_saved none filename s = s ∧
    record_transcript_saved (some []) filename s = s ∧
    (is_transcript_already_saved none s).1 = false ∧
    (is_transcript_already_saved (some []) s).1 = false := by
  obtain ⟨c, t', rfl⟩ : ∃ c t', t = c :: t' := by
    cases t with
    | nil => exact absurd rfl h
    | cons c t' => exact ⟨c, t', rfl⟩
  refine ⟨?_, ?_, ?_, ?_, ?_, ?_⟩ <;>
    simp [record_transcript_saved, is_transcript_already_saved, idFalsy,
      load_index, save_index, freshFormatter, dictGet_dictSet_self]

/-- Witness for C5 at a concrete ID, filename and starting state. -/
theorem save_index_round_trip_witness :
    (is_transcript_already_saved (some ("t1".data))
      (freshFormatter (record_transcript_saved (some ("t1".data))
        ("Alpha.md".data) (freshFormatter none)).diskIndex)).1 = true :=
  (save_index_round_trip ("t1".data) ("Alpha.md".data) (freshFormatter none)
    (by decide)).1

/-- The claim's participant-formatting formula fails on the code at the pair
of empty lists: the union deduplicates to `[]`, whose comma-join is the empty
string, but the source returns the fixed string "No participants recorded". -/
theorem format_participants_empty_counterexample :
    format_participants [] [] ≠ commaJoin (pySetList ([] ++ [])) ∧
    pySetList ([] ++ []) = [] ∧ (pySetList ([] ++ [])).length ≤ 5 := by
  refine ⟨?_, by decide, by decide⟩
  decide

/-- First-occurrence deduplication: membership characterization of the
helper of `pySetList`. -/
theorem mem_pySetList_go (l : List (List Char)) (seen : List (List Char))
    (a : List Char) :
    a ∈ pySetList.go seen l ↔ a ∈ l ∧ a ∉ seen := by
  induction l generalizing seen with
  | nil => simp [pySetList.go]
  | cons x xs ih =>
    by_cases hx : x ∈ seen
    · rw [pySetList.go, if_pos hx, ih]
      constructor
      · rintro ⟨hm, hs⟩
        exact ⟨List.mem_cons_of_mem _ hm, hs⟩
      · rintro ⟨hm, hs⟩
        rcases List.mem_cons.1 hm with rfl | hm
        · exact absurd hx hs
        · exact ⟨hm, hs⟩
    · rw [pySetList.go, if_neg hx]
      constructor
      · intro hm
        rcases List.mem_cons.1 hm with rfl | hm
        · exact ⟨List.mem_cons_self _ _, hx⟩
        · obtain ⟨h1, h2⟩ := (ih _).1 hm
          refine ⟨List.mem_cons_of_mem _ h1, fun hs => h2 ?_⟩
          exact List.mem_cons_of_mem _ hs
      · rintro ⟨hm, hs⟩
        rcases List.mem_cons.1 hm with rfl | hm
        · exact List.mem_cons_self _ _
        · by_cases hax : a = x
          · subst hax
            exact List.mem_cons_self _ _
          · refine List.mem_cons_of_mem _ ((ih _).2 ⟨hm, ?_⟩)
            intro hs'
            rcases List.mem_cons.1 hs' with h | h
            · exact hax h
            · exact hs h

/-- First-occurrence deduplication produces no duplicates. -/
theorem nodup_pySetList_go (l : List (List Char)) (seen : List (List Char)) :
    (pySetList.go seen l).Nodup := by
  induction l generalizing seen with
  | nil => simp [pySetList.go]
  | cons x xs ih =>
    by_cases hx : x ∈ seen
    · rw [pySetList.go, if_pos hx]
      exact ih seen
    · rw [pySetList.go, if_neg hx]
      refine List.Nodup.cons ?_ (ih (x :: seen))
      intro hm
      exact ((mem_pySetList_go xs (x :: seen) x).1 hm).2
        (List.mem_cons_self _ _)

/-- Claim C7 (amended): unless both input lists are empty (in which case the
source returns the fixed string "No participants recorded"),
`format_participants` deduplicates the union of the two lists; with at most 5
unique participants it returns the comma-joined list of all of them, with
more than 5 the first 3 followed by "and N others" where N is the unique
count minus 3. -/
theorem format_participants_spec (ps fs : List (List Char))
    (h : ps ≠ [] ∨ fs ≠ []) :
    (pySetList (ps ++ fs)).Nodup ∧
    (∀ a, a ∈ pySetList (ps ++ fs) ↔ a ∈ ps ++ fs) ∧
    ((pySetList (ps ++ fs)).length ≤ 5 →
      format_participants ps fs = commaJoin (pySetList (ps ++ fs))) ∧
    (5 < (pySetList (ps ++ fs)).length →
      format_participants ps fs =
        commaJoin ((pySetList (ps ++ fs)).take 3) ++ " and ".data ++
          (Nat.repr ((pySetList (ps ++ fs)).length - 3)).data ++
          " others".data) := by
  have hne : (ps.isEmpty && fs.isEmpty) = false := by
    rcases h with h | h <;> cases ps <;> cases fs <;> simp_all
  refine ⟨nodup_pySetList_go _ _, ?_, ?_, ?_⟩
  · intro a
    rw [pySetList, mem_pySetList_go]
    simp
  · intro hlen
    rw [format_participants, if_neg (by simp [hne]), if_pos hlen]
  · intro hlen
    rw [format_participants, if_neg (by simp [hne]),
      if_neg (by omega)]

/-- Witness for C7 at six distinct participants: the ">5" branch. -/
theorem format_participants_spec_witness :
    format_participants [['a'], ['b'], ['c'], ['d'], ['e'], ['f']] [] =
      "a, b, c and 3 others".data :=
  by
    have h := (format_participants_spec
      [['a'], ['b'], ['c'], ['d'], ['e'], ['f']] []
      (Or.inl (by decide))).2.2.2 (by decide)
    rw [h]
    decide

/-- Prepending the base skip to a run of skips advanced by `b` is the same
as one longer run of multiples of `b` above `a`. -/
theorem cons_range_map (a b n : Nat) :
    a :: (List.range n).map (fun i => (a + b) + i * b) =
      (List.range (n + 1)).map (fun i => a + i * b) := by
  rw [List.range_succ_eq_map]
  rw [List.map_cons, List.map_map]
  refine congrArg₂ List.cons (by omega) ?_
  refine List.map_congr_left ?_
  intro i _
  simp only [Function.comp_apply, Nat.succ_eq_add_one]
  ring

/-- The pagination loop at an arbitrary starting skip: with page size 50,
full pages are accumulated in request order, the loop stops at the first
short page, and the requested skips advance by 50. -/
theorem fetch_all_go_spec {α : Type} (fullPages : List (List α))
    (lastPage : List α) (junk : List (List α))
    (h1 : ∀ p ∈ fullPages, p.length = 50) (h2 : lastPage.length < 50)
    (skip0 : Nat) :
    fetch_all_go 50 (fullPages ++ lastPage :: junk) skip0 =
      (fullPages.flatten ++ lastPage,
        (List.range (fullPages.length + 1)).map (fun i => skip0 + i * 50)) := by
  induction fullPages generalizing skip0 with
  | nil =>
    simp only [List.nil_append, List.flatten, List.length_nil]
    rw [fetch_all_go]
    by_cases h0 : lastPage.length = 0
    · rw [if_pos h0]
      have : lastPage = [] := List.length_eq_zero.1 h0
      subst this
      simp [List.range_succ]
    · rw [if_neg h0, if_pos h2]
      simp [List.range_succ]
  | cons p rest ih =>
    have hp : p.length = 50 := h1 p (List.mem_cons_self _ _)
    have hrest : ∀ q ∈ rest, q.length = 50 :=
      fun q hq => h1 q (List.mem_cons_of_mem _ hq)
    rw [List.cons_append, fetch_all_go]
    rw [if_neg (by omega), if_neg (by omega)]
    simp only [ih hrest (skip0 + 50)]
    refine congrArg₂ Prod.mk ?_ ?_
    · simp [List.flatten, List.append_assoc]
    · rw [List.length_cons]
      exact cons_range_map skip0 50 (rest.length + 1)

/-- Claim C4: `fetch_all_transcripts_in_range` with page size 50 requests
pages at skips 0, 50, 100, ..., stops immediately after the first page with
zero or fewer than 50 items, and returns the concatenation of all prior full
pages plus that final partial page in request order, without deduplication;
pages after the first short one are never requested. -/
theorem fetch_all_pagination {α : Type} (fullPages : List (List α))
    (lastPage : List α) (junk : List (List α))
    (h1 : ∀ p ∈ fullPages, p.length = 50) (h2 : lastPage.length < 50) :
    fetch_all_transcripts_in_range (fullPages ++ lastPage :: junk) 50 =
      (fullPages.flatten ++ lastPage,
        (List.range (fullPages.length + 1)).map (fun i => i * 50)) := by
  rw [fetch_all_transcripts_in_range, fetch_all_go_spec fullPages lastPage junk h1 h2 0]
  refine congrArg₂ Prod.mk rfl ?_
  refine List.map_congr_left ?_
  intro i _
  omega

/-- Witness for C4: one full page of 50 items, then a short page of 2; the
provider after the short page is never consulted. -/
theorem fetch_all_pagination_witness :
    fetch_all_transcripts_in_range
      [List.replicate 50 0, [1, 2], [7, 7, 7]] 50 =
      ((List.replicate 50 0).append [1, 2], [0, 50]) := by
  have h := fetch_all_pagination [List.replicate 50 0] [1, 2] [[7, 7, 7]]
    (by intro p hp; simp at hp; subst hp; simp) (by decide)
  simpa using h

/-- One pass of `process_transcript` never touches the `skipped_files`
counter (there is no skip branch in the source loop), and it increments the
detail-fetch trace exactly when a request was issued. -/
theorem process_transcript_counters
    (details : List Char → Option TranscriptData) (ts : List Char)
    (writeOk : Bool) (m : TranscriptMeta) (st : OrchState) :
    ((process_transcript details ts writeOk m st).2).stats.skipped_files
        = st.stats.skipped_files ∧
    ((process_transcript details ts writeOk m st).2).fetchCalls
        = st.fetchCalls +
          (if (fetch_transcript_details details m.id).2 then 1 else 0) := by
  rcases hf : fetch_transcript_details details m.id with ⟨res, called⟩
  cases res with
  | none => simp [process_transcript, hf]
  | some d =>
    rcases hs : save_transcript ts writeOk d st.save with ⟨sres, save'⟩
    cases sres <;> simp [process_transcript, hf, hs]

/-- A failed detail fetch leaves the success counter alone. -/
theorem process_transcript_failed_fetch
    (details : List Char → Option TranscriptData) (ts : List Char)
    (writeOk : Bool) (m : TranscriptMeta) (st : OrchState)
    (h : (fetch_transcript_details details m.id).1 = none) :
    ((process_transcript details ts writeOk m st).2).stats.successful_downloads
        = st.stats.successful_downloads := by
  rcases hf : fetch_transcript_details details m.id with ⟨res, called⟩
  rw [hf] at h
  simp only at h
  subst h
  simp [process_transcript, hf]

/-- The processing loop never increments `skipped_files`. -/
theorem process_all_skipped_aux
    (details : List Char → Option TranscriptData) (ts : List Char)
    (writeOk : Bool) (metas : List TranscriptMeta) (st : OrchState) :
    (process_all_transcripts details ts writeOk metas st).stats.skipped_files
        = st.stats.skipped_files := by
  induction metas generalizing st with
  | nil => rfl
  | cons m rest ih =>
    rw [process_all_transcripts, ih]
    exact (process_transcript_counters details ts writeOk m st).1

/-- If every detail fetch in the listing fails, the loop leaves the success
counter unchanged. -/
theorem process_all_allfail_aux
    (details : List Char → Option TranscriptData) (ts : List Char)
    (writeOk : Bool) (metas : List TranscriptMeta) (st : OrchState)
    (h : ∀ m ∈ metas, (fetch_transcript_details details m.id).1 = none) :
    (process_all_transcripts details ts writeOk metas st).stats.successful_downloads
        = st.stats.successful_downloads := by
  induction metas generalizing st with
  | nil => rfl
  | cons m rest ih =>
    rw [process_all_transcripts,
      ih _ (fun q hq => h q (List.mem_cons_of_mem _ hq))]
    exact process_transcript_failed_fetch details ts writeOk m st
      (h m (List.mem_cons_self _ _))

/-- Claim C1: the orchestrator's processing loop has no skip branch — the
`skipped_files` counter is never incremented on any run — and on a listing
whose two IDs are both already present in the save-index it still issues one
detail fetch per item and writes a (duplicate) document for each, counting
them as successful downloads, where the claim demands zero fetches and two
skips. -/
theorem processing_loop_never_skips :
    (∀ (details : List Char → Option TranscriptData) (ts : List Char)
      (writeOk : Bool) (metas : List TranscriptMeta) (st : OrchState),
      (process_all_transcripts details ts writeOk metas st).stats.skipped_files
          = st.stats.skipped_files) ∧
    (let final := process_all_transcripts (fun t => some ⟨some t, some t⟩)
        ("20240101_120000".data) true
        [⟨some ("t1".data), "Alpha".data⟩, ⟨some ("t2".data), "Beta".data⟩]
        (initOrchState
          (some [("t1".data, "a.md".data), ("t2".data, "b.md".data)]) [])
     final.fetchCalls = 2 ∧
     final.stats.skipped_files = 0 ∧
     final.stats.successful_downloads = 2 ∧
     final.save.files = ["t1.md".data, "t2.md".data]) := by
  refine ⟨process_all_skipped_aux, ?_, ?_, ?_, ?_⟩ <;> rfl

/-- Claim C3: for a completed run the exit code is 0 iff at least one
transcript was successfully downloaded; a zero-item listing or an all-failed
listing exits 1, as do interrupted runs and runs whose initialization
failed. -/
theorem exit_code_success_criterion
    (details : List Char → Option TranscriptData) (ts : List Char)
    (writeOk : Bool) (metas : List TranscriptMeta) (disk : Option IndexMap)
    (files : List (List Char)) (initOk : Bool) :
    (mainExitCode .completes true details ts writeOk metas
        (initOrchState disk files) = 0 ↔
      0 < (run .completes true details ts writeOk metas
        (initOrchState disk files)).2.stats.successful_downloads) ∧
    mainExitCode .completes true details ts writeOk []
      (initOrchState disk files) = 1 ∧
    ((∀ m ∈ metas, (fetch_transcript_details details m.id).1 = none) →
      mainExitCode .completes true details ts writeOk metas
        (initOrchState disk files) = 1) ∧
    mainExitCode .interrupted initOk details ts writeOk metas
      (initOrchState disk files) = 1 ∧
    mainExitCode .fatalError initOk details ts writeOk metas
      (initOrchState disk files) = 1 ∧
    mainExitCode .completes false details ts writeOk metas
      (initOrchState disk files) = 1 := by
  refine ⟨?_, ?_, ?_, rfl, rfl, rfl⟩
  · simp only [mainExitCode, run, if_pos rfl]
    by_cases h : 0 < (process_all_transcripts details ts writeOk metas
        { initOrchState disk files with stats :=
          { (initOrchState disk files).stats with
            total_transcripts := metas.length } }).stats.successful_downloads
    · simp [h]
    · simp [h]
  · rfl
  · intro h
    have hz := process_all_allfail_aux details ts writeOk metas
      { initOrchState disk files with stats :=
        { (initOrchState disk files).stats with
          total_transcripts := metas.length } } h
    simp only [mainExitCode, run, if_pos rfl]
    rw [if_neg]
    simp only [decide_eq_true_eq, hz]
    exact fun hlt => by simp [initOrchState, initStats] at hlt

/-- Witness for C3: one listed transcript whose detail fetch fails; the run
completes with zero successes and exits 1. -/
theorem exit_code_success_criterion_witness :
    mainExitCode .completes true (fun _ => none) [] true
      [⟨some ("t1".data), "T".data⟩] (initOrchState none []) = 1 :=
  (exit_code_success_criterion (fun _ => none) [] true
    [⟨some ("t1".data), "T".data⟩] none [] true).2.2.1 (by decide)

/-- Claim C10: `save_transcript` touches the save-index only after the
document write succeeds.  A failed write raises the filesystem error and
returns with the entire state — files, in-memory index and on-disk index —
exactly as it was; a successful write appends the resolved path to the
directory and only then records the ID, so a non-empty ID is indexed (in
memory and on disk) precisely to the filename written by that call. -/
theorem save_transcript_index_only_after_write (ts : List Char)
    (tdata : TranscriptData) (st : SaveState) :
    save_transcript ts false tdata st = (Except.error (), st) ∧
    (∃ p, save_transcript ts true tdata st = (Except.ok p,
      ⟨st.files ++ [p], record_transcript_saved tdata.id p st.fmt⟩)) ∧
    (∀ t, tdata.id = some t → t ≠ [] →
      ∃ p, save_transcript ts true tdata st = (Except.ok p,
        ⟨st.files ++ [p], record_transcript_saved tdata.id p st.fmt⟩) ∧
        dictGet (record_transcript_saved tdata.id p st.fmt).idIndex t
          = some p ∧
        (record_transcript_saved tdata.id p st.fmt).diskIndex
          = some (record_transcript_saved tdata.id p st.fmt).idIndex) := by
  refine ⟨rfl, ⟨_, rfl⟩, ?_⟩
  intro t ht hne
  refine ⟨_, rfl, ?_, ?_⟩ <;>
  · rw [ht]
    obtain ⟨c, t', rfl⟩ : ∃ c t', t = c :: t' := by
      cases t with
      | nil => exact absurd rfl hne
      | cons c t' => exact ⟨c, t', rfl⟩
    simp [record_transcript_saved, idFalsy, save_index, load_index,
      dictGet_dictSet_self]

/-- Witness for C10: a concrete transcript with ID "t1" against an empty
directory; the failure and success conclusions at that input. -/
theorem save_transcript_index_only_after_write_witness :
    save_transcript [] false ⟨some ("t1".data), some ("T".data)⟩
        ⟨[], freshFormatter none⟩ =
      (Except.error (), ⟨[], freshFormatter none⟩) ∧
    ∃ p, save_transcript [] true ⟨some ("t1".data), some ("T".data)⟩
        ⟨[], freshFormatter none⟩ = (Except.ok p,
        ⟨[] ++ [p], record_transcript_saved (some ("t1".data)) p
          (freshFormatter none)⟩) ∧
      dictGet (record_transcript_saved (some ("t1".data)) p
        (freshFormatter none)).idIndex ("t1".data) = some p :=
  ⟨(save_transcript_index_only_after_write [] ⟨some ("t1".data),
      some ("T".data)⟩ ⟨[], freshFormatter none⟩).1,
    match (save_transcript_index_only_after_write []
      ⟨some ("t1".data), some ("T".data)⟩
      ⟨[], freshFormatter none⟩).2.2 ("t1".data) rfl (by decide) with
    | ⟨p, h1, h2, _⟩ => ⟨p, h1, h2⟩⟩

/-! ## Sanitization lemmas (claim C6) -/

/-- No two adjacent characters of the list both satisfy `p`. -/
def okAdj (p : Char → Bool) : List Char → Bool
  | a :: b :: rest => (!(p a && p b)) && okAdj p (b :: rest)
  | _ => true

/-- Unfolding `okAdj` on two or more characters. -/
theorem okAdj_cons₂ (p : Char → Bool) (a b : Char) (l : List Char) :
    okAdj p (a :: b :: l) = ((!(p a && p b)) && okAdj p (b :: l)) := rfl

/-- Adjacency freedom passes to the tail. -/
theorem okAdj_tail (p : Char → Bool) (a : Char) (l : List Char)
    (h : okAdj p (a :: l) = true) : okAdj p l = true := by
  cases l with
  | nil => rfl
  | cons b rest =>
    rw [okAdj_cons₂, Bool.and_eq_true] at h
    exact h.2

/-- Adjacency freedom passes to a left chunk of an append. -/
theorem okAdj_append_left (p : Char → Bool) (l r : List Char)
    (h : okAdj p (l ++ r) = true) : okAdj p l = true := by
  induction l with
  | nil => rfl
  | cons a l' ih =>
    cases l' with
    | nil => rfl
    | cons b l'' =>
      rw [List.cons_append, List.cons_append, okAdj_cons₂, Bool.and_eq_true] at h
      rw [okAdj_cons₂, Bool.and_eq_true]
      exact ⟨h.1, ih h.2⟩

/-- Adjacency freedom passes to a right chunk of an append. -/
theorem okAdj_append_right (p : Char → Bool) (l r : List Char)
    (h : okAdj p (l ++ r) = true) : okAdj p r = true := by
  induction l with
  | nil => exact h
  | cons a l' ih => exact ih (okAdj_tail p a (l' ++ r) h)

/-- Dropping-while is the identity when nothing satisfies `p`. -/
theorem dropWhile_eq_self_of_all (p : Char → Bool) (l : List Char)
    (h : ∀ c ∈ l, p c = false) : l.dropWhile p = l := by
  cases l with
  | nil => rfl
  | cons a l' => simp [List.dropWhile, h a (List.mem_cons_self _ _)]

/-- Dropping-while is the identity when the head does not satisfy `p`. -/
theorem dropWhile_eq_self_of_headOpt (p : Char → Bool) (l : List Char)
    (h : ∀ c, l.head? = some c → p c = false) : l.dropWhile p = l := by
  cases l with
  | nil => rfl
  | cons a l' => simp [List.dropWhile, h a rfl]

/-- The head of a `dropWhile` result does not satisfy `p`. -/
theorem headOpt_dropWhile (p : Char → Bool) (l : List Char) (c : Char)
    (h : (l.dropWhile p).head? = some c) : p c = false := by
  induction l with
  | nil => simp [List.dropWhile] at h
  | cons a l' ih =>
    by_cases ha : p a = true
    · rw [List.dropWhile, ha] at h
      exact ih h
    · have ha' : p a = false := by simpa using ha
      rw [List.dropWhile, ha'] at h
      have : a = c := by simpa using h
      rw [← this]
      exact ha'

/-- The list `dropWhile p l` is a suffix of `l`. -/
theorem dropWhile_suffix_decomp (p : Char → Bool) (l : List Char) :
    ∃ u, u ++ l.dropWhile p = l := by
  induction l with
  | nil => exact ⟨[], rfl⟩
  | cons a l' ih =>
    by_cases ha : p a = true
    · obtain ⟨u, hu⟩ := ih
      refine ⟨a :: u, ?_⟩
      rw [List.dropWhile, ha, List.cons_append, hu]
    · have ha' : p a = false := by simpa using ha
      refine ⟨[], ?_⟩
      rw [List.dropWhile, ha', List.nil_append]

/-- Dropping-while keeps any element that fails `p`. -/
theorem dropWhile_ne_nil_of_exists (p : Char → Bool) (l : List Char)
    (h : ∃ x ∈ l, p x = false) : l.dropWhile p ≠ [] := by
  induction l with
  | nil =>
    obtain ⟨x, hx, _⟩ := h
    exact absurd hx (List.not_mem_nil x)
  | cons a l' ih =>
    by_cases ha : p a = true
    · rw [List.dropWhile, ha]
      apply ih
      obtain ⟨x, hx, hpx⟩ := h
      rcases List.mem_cons.1 hx with rfl | hx'
      · rw [ha] at hpx
        cases hpx
      · exact ⟨x, hx', hpx⟩
    · have ha' : p a = false := by simpa using ha
      rw [List.dropWhile, ha']
      simp

/-- The list `rstripP p l` is a leading chunk of `l`. -/
theorem rstrip_decomp (p : Char → Bool) (l : List Char) :
    ∃ v, rstripP p l ++ v = l := by
  obtain ⟨u, hu⟩ := dropWhile_suffix_decomp p l.reverse
  refine ⟨u.reverse, ?_⟩
  rw [rstripP, ← List.reverse_append, hu, List.reverse_reverse]

/-- The last character of an `rstripP` result does not satisfy `p`. -/
theorem lastOpt_rstrip (p : Char → Bool) (l : List Char) (c : Char)
    (h : (rstripP p l).getLast? = some c) : p c = false := by
  rw [rstripP, List.getLast?_reverse] at h
  exact headOpt_dropWhile p l.reverse c h

/-- Right-stripping is the identity when the last character fails `p`. -/
theorem rstrip_eq_self_of_lastOpt (p : Char → Bool) (l : List Char)
    (h : ∀ c, l.getLast? = some c → p c = false) : rstripP p l = l := by
  rw [rstripP]
  have hd : l.reverse.dropWhile p = l.reverse := by
    apply dropWhile_eq_self_of_headOpt
    intro c hc
    rw [List.head?_reverse] at hc
    exact h c hc
  rw [hd, List.reverse_reverse]

/-- Head of an append with a non-empty left part. -/
theorem headOpt_append_ne_nil (m v : List Char) (h : m ≠ []) :
    (m ++ v).head? = m.head? := by
  cases m with
  | nil => exact absurd rfl h
  | cons a m' => rfl

/-- A character named by `head?` is a member. -/
theorem mem_of_headOpt (l : List Char) (c : Char) (h : l.head? = some c) :
    c ∈ l := by
  cases l with
  | nil => cases h
  | cons a l' =>
    have : a = c := by simpa using h
    rw [← this]
    exact List.mem_cons_self _ _

/-- A character named by `getLast?` is a member. -/
theorem mem_of_lastOpt (l : List Char) (c : Char) (h : l.getLast? = some c) :
    c ∈ l := by
  rw [← List.head?_reverse] at h
  exact List.mem_reverse.1 (mem_of_headOpt _ _ h)

/-- Right-stripping keeps a head that fails `p`, and so stays non-empty. -/
theorem rstrip_keeps_head (p : Char → Bool) (l : List Char) (c : Char)
    (h1 : l.head? = some c) (h2 : p c = false) :
    rstripP p l ≠ [] ∧ (rstripP p l).head? = some c := by
  have hne : rstripP p l ≠ [] := by
    rw [rstripP]
    intro hcon
    have hdw : l.reverse.dropWhile p = [] := by
      have := congrArg List.reverse hcon
      simpa using this
    refine dropWhile_ne_nil_of_exists p l.reverse ⟨c, ?_, h2⟩ hdw
    exact List.mem_reverse.2 (mem_of_headOpt _ _ h1)
  obtain ⟨v, hv⟩ := rstrip_decomp p l
  refine ⟨hne, ?_⟩
  rw [← hv, headOpt_append_ne_nil _ _ hne] at h1
  exact h1

/-- Unfolding `collapseRuns` on a singleton. -/
theorem collapseRuns_single (c : Char) :
    collapseRuns [c] = if isUnderscoreOrSpace c then ['_'] else [c] := rfl

/-- Unfolding `collapseRuns` on two or more characters. -/
theorem collapseRuns_cons₂ (c d : Char) (rest : List Char) :
    collapseRuns (c :: d :: rest) =
      if isUnderscoreOrSpace c then
        if isUnderscoreOrSpace d then collapseRuns (d :: rest)
        else '_' :: collapseRuns (d :: rest)
      else c :: collapseRuns (d :: rest) := rfl

/-- Every character of a collapsed list is either the substituted underscore
or an original character that is neither an underscore nor whitespace. -/
theorem collapse_chars (l : List Char) :
    ∀ c ∈ collapseRuns l,
      c = '_' ∨ (c ∈ l ∧ isUnderscoreOrSpace c = false) := by
  induction l with
  | nil =>
    intro c hc
    simp [collapseRuns] at hc
  | cons a rest ih =>
    cases rest with
    | nil =>
      intro c hc
      rw [collapseRuns_single] at hc
      by_cases ha : isUnderscoreOrSpace a = true
      · rw [if_pos ha] at hc
        left
        simpa using hc
      · have ha' : isUnderscoreOrSpace a = false := by simpa using ha
        rw [if_neg ha] at hc
        right
        have : c = a := by simpa using hc
        rw [this]
        exact ⟨List.mem_cons_self _ _, ha'⟩
    | cons d rest' =>
      intro c hc
      rw [collapseRuns_cons₂] at hc
      have extend : c = '_' ∨ (c ∈ d :: rest' ∧ isUnderscoreOrSpace c = false) →
          c = '_' ∨ (c ∈ a :: d :: rest' ∧ isUnderscoreOrSpace c = false) := by
        rintro (h | ⟨hm, hu⟩)
        · exact Or.inl h
        · exact Or.inr ⟨List.mem_cons_of_mem _ hm, hu⟩
      by_cases ha : isUnderscoreOrSpace a = true
      · rw [if_pos ha] at hc
        by_cases hd : isUnderscoreOrSpace d = true
        · rw [if_pos hd] at hc
          exact extend (ih c hc)
        · rw [if_neg hd] at hc
          rcases List.mem_cons.1 hc with rfl | hc'
          · exact Or.inl rfl
          · exact extend (ih c hc')
      · have ha' : isUnderscoreOrSpace a = false := by simpa using ha
        rw [if_neg ha] at hc
        rcases List.mem_cons.1 hc with rfl | hc'
        · exact Or.inr ⟨List.mem_cons_self _ _, ha'⟩
        · exact extend (ih c hc')

/-- When the first character is not collapsible, `collapseRuns` keeps it. -/
theorem collapse_head (d : Char) (rest : List Char)
    (h : isUnderscoreOrSpace d = false) :
    ∃ t, collapseRuns (d :: rest) = d :: t := by
  cases rest with
  | nil =>
    refine ⟨[], ?_⟩
    rw [collapseRuns_single, if_neg (by simp [h])]
  | cons e rest' =>
    refine ⟨collapseRuns (e :: rest'), ?_⟩
    rw [collapseRuns_cons₂, if_neg (by simp [h])]

/-- A collapsed list never has two adjacent collapsible characters. -/
theorem collapse_okAdj (l : List Char) :
    okAdj isUnderscoreOrSpace (collapseRuns l) = true := by
  induction l with
  | nil => rfl
  | cons a rest ih =>
    cases rest with
    | nil =>
      rw [collapseRuns_single]
      by_cases ha : isUnderscoreOrSpace a = true
      · rw [if_pos ha]
        rfl
      · rw [if_neg ha]
        rfl
    | cons d rest' =>
      rw [collapseRuns_cons₂]
      by_cases ha : isUnderscoreOrSpace a = true
      · rw [if_pos ha]
        by_cases hd : isUnderscoreOrSpace d = true
        · rw [if_pos hd]
          exact ih
        · have hd' : isUnderscoreOrSpace d = false := by simpa using hd
          rw [if_neg hd]
          obtain ⟨t, ht⟩ := collapse_head d rest' hd'
          rw [ht]
          rw [ht] at ih
          rw [okAdj_cons₂, Bool.and_eq_true]
          refine ⟨?_, ih⟩
          simp [hd']
      · have ha' : isUnderscoreOrSpace a = false := by simpa using ha
        rw [if_neg ha]
        cases hM : collapseRuns (d :: rest') with
        | nil => rfl
        | cons m ms =>
          rw [hM] at ih
          rw [okAdj_cons₂, Bool.and_eq_true]
          refine ⟨?_, ih⟩
          simp [ha']

/-- A list whose collapsible characters are all already the underscore and
which has no two adjacent collapsible characters is a fixpoint of
`collapseRuns`. -/
theorem collapse_fixpoint (l : List Char)
    (h1 : ∀ c ∈ l, isUnderscoreOrSpace c = true → c = '_')
    (h2 : okAdj isUnderscoreOrSpace l = true) : collapseRuns l = l := by
  induction l with
  | nil => rfl
  | cons a rest ih =>
    cases rest with
    | nil =>
      rw [collapseRuns_single]
      by_cases ha : isUnderscoreOrSpace a = true
      · rw [if_pos ha, h1 a (List.mem_cons_self _ _) ha]
      · rw [if_neg ha]
    | cons d rest' =>
      have hM : collapseRuns (d :: rest') = d :: rest' :=
        ih (fun c hc => h1 c (List.mem_cons_of_mem _ hc))
          (okAdj_tail _ _ _ h2)
      rw [collapseRuns_cons₂]
      by_cases ha : isUnderscoreOrSpace a = true
      · have ha' : a = '_' := h1 a (List.mem_cons_self _ _) ha
        have hd : isUnderscoreOrSpace d = false := by
          rw [okAdj_cons₂, Bool.and_eq_true] at h2
          have := h2.1
          rw [ha] at this
          simpa using this
        rw [if_pos ha, if_neg (by simp [hd]), hM, ha']
      · rw [if_neg ha, hM]

/-- Output of `map replaceInvalid` has no invalid characters. -/
theorem mem_map_replaceInvalid (l : List Char) (c : Char)
    (h : c ∈ l.map replaceInvalid) : isInvalidChar c = false := by
  obtain ⟨c', _, rfl⟩ := List.mem_map.1 h
  rw [replaceInvalid]
  by_cases hc : isInvalidChar c' = true
  · rw [if_pos hc]
    decide
  · rw [if_neg hc]
    simpa using hc

/-- Mapping `replaceInvalid` is the identity on invalid-free input. -/
theorem map_replaceInvalid_eq_self (l : List Char)
    (h : ∀ c ∈ l, isInvalidChar c = false) : l.map replaceInvalid = l := by
  induction l with
  | nil => rfl
  | cons a l' ih =>
    rw [List.map_cons, ih (fun c hc => h c (List.mem_cons_of_mem _ hc)),
      replaceInvalid, if_neg (by simp [h a (List.mem_cons_self _ _)])]

/-- Membership transfers from a contiguous chunk to the whole list. -/
theorem chunk_mem (u m v l : List Char) (huv : u ++ (m ++ v) = l) (c : Char)
    (hc : c ∈ m) : c ∈ l := by
  rw [← huv]
  exact List.mem_append.2 (Or.inr (List.mem_append.2 (Or.inl hc)))

/-- Adjacent-pair freedom transfers to a contiguous chunk. -/
theorem chunk_okAdj (p : Char → Bool) (u m v l : List Char)
    (huv : u ++ (m ++ v) = l) (h : okAdj p l = true) : okAdj p m = true := by
  refine okAdj_append_left p m v (okAdj_append_right p u (m ++ v) ?_)
  rw [huv]
  exact h

/-- The list `stripP p l` is a contiguous chunk of `l`. -/
theorem strip_chunk (p : Char → Bool) (l : List Char) :
    ∃ u v, u ++ (stripP p l ++ v) = l := by
  obtain ⟨u, hu⟩ := dropWhile_suffix_decomp p l
  obtain ⟨v, hv⟩ := rstrip_decomp p (l.dropWhile p)
  refine ⟨u, v, ?_⟩
  have hv' : stripP p l ++ v = l.dropWhile p := hv
  rw [hv', hu]

/-- The head of a `stripP` result does not satisfy `p`. -/
theorem headOpt_stripP (p : Char → Bool) (l : List Char) (c : Char)
    (h : (stripP p l).head? = some c) : p c = false := by
  have hne : stripP p l ≠ [] := by
    intro hc
    rw [hc] at h
    cases h
  obtain ⟨v, hv⟩ := rstrip_decomp p (l.dropWhile p)
  have hv' : stripP p l ++ v = l.dropWhile p := hv
  apply headOpt_dropWhile p l c
  rw [← hv', headOpt_append_ne_nil _ _ hne]
  exact h

/-- The last character of a `stripP` result does not satisfy `p`. -/
theorem lastOpt_stripP (p : Char → Bool) (l : List Char) (c : Char)
    (h : (stripP p l).getLast? = some c) : p c = false :=
  lastOpt_rstrip p (l.dropWhile p) c h

/-- Shape of every non-fallback output of `sanitize_filename`: non-empty, at
most 100 characters, free of invalid characters and whitespace (every
collapsible character is already the underscore), no two adjacent
collapsible characters, and no leading or trailing trim character. -/
theorem sanitizeCore_props (title s : List Char) (h : sanitizeCore title = some s) :
    s ≠ [] ∧ s.length ≤ 100 ∧
    (∀ c ∈ s, c = '_' ∨ (isUnderscoreOrSpace c = false ∧ isInvalidChar c = false)) ∧
    okAdj isUnderscoreOrSpace s = true ∧
    (∀ c, s.head? = some c → isTrimChar c = false) ∧
    (∀ c, s.getLast? = some c → isTrimChar c = false) := by
  simp only [sanitizeCore] at h
  generalize hs2 : collapseRuns ((pyStrip title).map replaceInvalid) = s2 at h
  have hchars2 : ∀ c ∈ s2,
      c = '_' ∨ (isUnderscoreOrSpace c = false ∧ isInvalidChar c = false) := by
    intro c hc
    rw [← hs2] at hc
    rcases collapse_chars _ c hc with hc' | ⟨hm, hu⟩
    · exact Or.inl hc'
    · exact Or.inr ⟨hu, mem_map_replaceInvalid _ c hm⟩
  have hadj2 : okAdj isUnderscoreOrSpace s2 = true := by
    rw [← hs2]
    exact collapse_okAdj _
  obtain ⟨u, v, huv⟩ := strip_chunk isTrimChar s2
  have hchars3 : ∀ c ∈ stripP isTrimChar s2,
      c = '_' ∨ (isUnderscoreOrSpace c = false ∧ isInvalidChar c = false) :=
    fun c hc => hchars2 c (chunk_mem u _ v s2 huv c hc)
  have hadj3 : okAdj isUnderscoreOrSpace (stripP isTrimChar s2) = true :=
    chunk_okAdj _ u _ v s2 huv hadj2
  split_ifs at h with hA hB hC
  · -- the truncation branch
    have hs : rstripP isTrimChar ((stripP isTrimChar s2).take 100) = s :=
      Option.some.inj h
    cases hs3 : stripP isTrimChar s2 with
    | nil => exact absurd hs3 hB
    | cons a s3' =>
      rw [hs3] at hs
      have ha : isTrimChar a = false :=
        headOpt_stripP isTrimChar s2 a (by rw [hs3]; rfl)
      have htake : ((a :: s3').take 100).head? = some a := by
        rw [show (100 : Nat) = 99 + 1 from rfl, List.take_succ_cons]
        rfl
      obtain ⟨hne, hhd⟩ :=
        rstrip_keeps_head isTrimChar ((a :: s3').take 100) a htake ha
      rw [hs] at hne hhd
      obtain ⟨v2, hv2⟩ := rstrip_decomp isTrimChar ((a :: s3').take 100)
      rw [hs] at hv2
      have hlen : s.length ≤ 100 := by
        have h1 := congrArg List.length hv2
        rw [List.length_append, List.length_take] at h1
        have h2 : min 100 (a :: s3').length ≤ 100 := Nat.min_le_left _ _
        omega
      have hchunk : (([] : List Char)) ++
          (s ++ (v2 ++ (a :: s3').drop 100)) = stripP isTrimChar s2 := by
        rw [List.nil_append, hs3, ← List.append_assoc, hv2,
          List.take_append_drop]
      refine ⟨hne, hlen, ?_, ?_, ?_, ?_⟩
      · exact fun c hc => hchars3 c (chunk_mem _ _ _ _ hchunk c hc)
      · exact chunk_okAdj _ _ _ _ _ hchunk hadj3
      · intro c hc
        rw [hhd] at hc
        have : a = c := by simpa using hc
        rw [← this]
        exact ha
      · intro c hc
        rw [← hs] at hc
        exact lastOpt_rstrip _ _ _ hc
  · -- the no-truncation branch
    have hs : stripP isTrimChar s2 = s := Option.some.inj h
    rw [hs] at hB hC hchars3 hadj3
    refine ⟨hB, by omega, hchars3, hadj3, ?_, ?_⟩
    · intro c hc
      rw [← hs] at hc
      exact headOpt_stripP _ _ _ hc
    · intro c hc
      rw [← hs] at hc
      exact lastOpt_stripP _ _ _ hc

/-- Every non-fallback output of the sanitizer is a fixpoint of the
sanitizer. -/
theorem sanitizeCore_fixpoint (title s : List Char)
    (h : sanitizeCore title = some s) : sanitizeCore s = some s := by
  obtain ⟨hne, hlen, hchars, hadj, hhead, hlast⟩ := sanitizeCore_props title s h
  have hnospace : ∀ c ∈ s, isPySpace c = false := by
    intro c hc
    rcases hchars c hc with rfl | ⟨hund, _⟩
    · decide
    · cases hps : isPySpace c
      · rfl
      · rw [isUnderscoreOrSpace, hps, Bool.or_true] at hund
        cases hund
  have hnoinv : ∀ c ∈ s, isInvalidChar c = false := by
    intro c hc
    rcases hchars c hc with rfl | ⟨_, hinv⟩
    · decide
    · exact hinv
  have hstrip : pyStrip s = s := by
    rw [pyStrip, stripP, lstripP, dropWhile_eq_self_of_all _ _ hnospace,
      rstrip_eq_self_of_lastOpt]
    intro c hc
    exact hnospace c (mem_of_lastOpt _ _ hc)
  have hund' : ∀ c ∈ s, isUnderscoreOrSpace c = true → c = '_' := by
    intro c hc hu
    rcases hchars c hc with rfl | ⟨hund, _⟩
    · rfl
    · rw [hund] at hu
      cases hu
  have hcollapse : collapseRuns s = s := collapse_fixpoint s hund' hadj
  have hmap : s.map replaceInvalid = s := map_replaceInvalid_eq_self s hnoinv
  have hstrip2 : stripP isTrimChar s = s := by
    rw [stripP, lstripP, dropWhile_eq_self_of_headOpt _ _ hhead,
      rstrip_eq_self_of_lastOpt _ _ hlast]
  simp only [sanitizeCore]
  rw [hstrip, if_neg hne, hmap, hcollapse, hstrip2, if_neg hne,
    if_neg (by omega)]

/-- Claim C6: `sanitize_filename` always returns a non-empty name, and on
any output it produced without taking the timestamp fallback it is
idempotent: sanitizing that output again (under any timestamp) returns it
unchanged. -/
theorem sanitize_filename_idempotent_and_nonempty (ts tsB title : List Char) :
    sanitize_filename ts title ≠ [] ∧
    (sanitizeCore title ≠ none →
      sanitize_filename tsB (sanitize_filename ts title)
        = sanitize_filename ts title) := by
  constructor
  · cases h : sanitizeCore title with
    | none => simp [sanitize_filename, h, fallbackName]
    | some s =>
      have := (sanitizeCore_props title s h).1
      simp [sanitize_filename, h, this]
  · intro hne
    cases h : sanitizeCore title with
    | none => exact absurd h hne
    | some s =>
      have hfix := sanitizeCore_fixpoint title s h
      simp [sanitize_filename, h, hfix]

/-- Witness for C6: a concrete title with an invalid character and inner
whitespace is sanitized without the fallback, and re-sanitizing the output
leaves it unchanged. -/
theorem sanitize_filename_idempotent_witness :
    sanitizeCore ("My: Meeting!".data) ≠ none ∧
    sanitize_filename ("20240101_120000".data)
        (sanitize_filename ("20240101_120000".data) ("My: Meeting!".data))
      = sanitize_filename ("20240101_120000".data) ("My: Meeting!".data) :=
  ⟨by decide,
    (sanitize_filename_idempotent_and_nonempty ("20240101_120000".data)
      ("20240101_120000".data) ("My: Meeting!".data)).2 (by decide)⟩
